import Mathlib

/-!
Verification of the multidimensional-compression engine
(`multidimensional_compression.cpp` / its header), a dynamic program that
selects an optimal rectangular partition of a multidimensional dataset.

Numeric modelling: the C++ code computes with `double`; we model finite
double values by `ℚ` and, where the code's NaN sentinel or IEEE special
values matter (loss normalisation), by an explicit `DVal` type with
`nan` / `pinf` / `ninf` constructors.  The binary logarithm `log2` is an
irrational-valued function; it is carried as an abstract parameter
`f : ℚ → ℚ` wherever it occurs, since none of the verified properties
depend on its numeric values (counterexamples pin it only at points where
`log2` is exact, such as `log2 2 = 1`).
-/

/-- A multi-subset as seen by the dynamic program `MultiSubset::computeCost`:
its (already computed and normalised) `loss`, and the list of its
multi-partitions, each a list of part multi-subsets, in the order built by
`MultiSet::buildMultiSubsets`.  The C++ lattice is a DAG with sharing; the
inductive unfolds it into a tree, which leaves the value of every computed
field unchanged (memoisation only avoids recomputation). -/
inductive MSub : Type where
  | mk (loss : ℚ) (multiPartitions : List (List MSub))

/-- The `loss` field of a multi-subset. -/
def MSub.loss : MSub → ℚ
  | .mk l _ => l

/-- The `multiPartitions` field of a multi-subset. -/
def MSub.multiPartitions : MSub → List (List MSub)
  | .mk _ mps => mps

mutual

/-- `MultiSubset::computeCost (lambda)`: returns the pair of the `cost`
field and the `multiPartition` field (the chosen partition, `none` for the
C++ `NULL`) that the call leaves on the multi-subset.  The C++ starts from
`cost = 1 + lambda * loss; multiPartition = NULL;` and then scans the
multi-partitions in order, keeping one exactly when its summed cost is
strictly smaller than the current cost. -/
def computeCost (lam : ℚ) : MSub → ℚ × Option (List MSub)
  | .mk loss mps => costFold lam (1 + lam * loss, none) mps

/-- The scan over `multiPartitions` inside `MultiSubset::computeCost`:
`acc` is the pair of the current `cost` and the current `multiPartition`. -/
def costFold (lam : ℚ) (acc : ℚ × Option (List MSub)) :
    List (List MSub) → ℚ × Option (List MSub)
  | [] => acc
  | Q :: rest =>
      costFold lam
        (if sumCosts lam Q < acc.1 then (sumCosts lam Q, some Q) else acc) rest

/-- The inner loop of `MultiSubset::computeCost`: `nextCost`, the sum of the
(recursively computed) costs of the parts of one multi-partition. -/
def sumCosts (lam : ℚ) : List MSub → ℚ
  | [] => 0
  | M :: Ms => (computeCost lam M).1 + sumCosts lam Ms

end

/-- The `cost` field left by `computeCost`. -/
def costOf (lam : ℚ) (M : MSub) : ℚ := (computeCost lam M).1

/-- The `multiPartition` field (chosen partition) left by `computeCost`. -/
def chosenOf (lam : ℚ) (M : MSub) : Option (List MSub) := (computeCost lam M).2

theorem costFold_le_acc (lam : ℚ) (acc : ℚ × Option (List MSub))
    (l : List (List MSub)) : (costFold lam acc l).1 ≤ acc.1 := by
  induction l generalizing acc with
  | nil => simp [costFold]
  | cons Q rest ih =>
      rw [costFold]
      split
      · exact le_trans (ih _) (le_of_lt (by assumption))
      · exact ih _

theorem costFold_le_mem (lam : ℚ) (acc : ℚ × Option (List MSub))
    (l : List (List MSub)) (Q : List MSub) (hQ : Q ∈ l) :
    (costFold lam acc l).1 ≤ sumCosts lam Q := by
  induction l generalizing acc with
  | nil => cases hQ
  | cons Q' rest ih =>
      rw [costFold]
      rcases List.mem_cons.mp hQ with h | h
      · subst h
        split
        · exact costFold_le_acc lam _ rest
        · exact le_trans (costFold_le_acc lam _ rest) (le_of_not_lt (by assumption))
      · exact ih _ h

theorem costFold_attained (lam : ℚ) (acc : ℚ × Option (List MSub))
    (l : List (List MSub)) :
    (costFold lam acc l).1 = acc.1 ∨
      ∃ Q ∈ l, (costFold lam acc l).1 = sumCosts lam Q := by
  induction l generalizing acc with
  | nil => left; simp [costFold]
  | cons Q rest ih =>
      rw [costFold]
      split
      · rcases ih (sumCosts lam Q, some Q) with h | ⟨Q', hQ', h⟩
        · right; exact ⟨Q, List.mem_cons_self .., h⟩
        · right; exact ⟨Q', List.mem_cons_of_mem _ hQ', h⟩
      · rcases ih acc with h | ⟨Q', hQ', h⟩
        · left; exact h
        · right; exact ⟨Q', List.mem_cons_of_mem _ hQ', h⟩

/-- Full characterisation of the scan: either the accumulator survives
untouched, or the chosen partition is the last strict improver, which beats
the initial cost and every alternative scanned before it. -/
theorem costFold_chosen (lam : ℚ) (acc : ℚ × Option (List MSub))
    (l : List (List MSub)) :
    ((costFold lam acc l).2 = acc.2 ∧ (costFold lam acc l).1 = acc.1) ∨
      ∃ l₁ Q l₂, l = l₁ ++ Q :: l₂ ∧
        (costFold lam acc l).2 = some Q ∧
        (costFold lam acc l).1 = sumCosts lam Q ∧
        sumCosts lam Q < acc.1 ∧
        ∀ Q' ∈ l₁, sumCosts lam Q < sumCosts lam Q' := by
  induction l generalizing acc with
  | nil => left; simp [costFold]
  | cons Q₀ rest ih =>
      rw [costFold]
      by_cases h₀ : sumCosts lam Q₀ < acc.1
      · rw [if_pos h₀]
        rcases ih (sumCosts lam Q₀, some Q₀) with ⟨h₂, h₁⟩ | ⟨l₁, Q, l₂, hl, h₂, h₁, hlt, hall⟩
        · right
          exact ⟨[], Q₀, rest, rfl, h₂, h₁, h₀, by simp⟩
        · right
          refine ⟨Q₀ :: l₁, Q, l₂, by rw [hl]; rfl, h₂, h₁, lt_trans hlt h₀, ?_⟩
          intro Q' hQ'
          rcases List.mem_cons.mp hQ' with h | h
          · subst h; exact hlt
          · exact hall Q' h
      · rw [if_neg h₀]
        rcases ih acc with ⟨h₂, h₁⟩ | ⟨l₁, Q, l₂, hl, h₂, h₁, hlt, hall⟩
        · left; exact ⟨h₂, h₁⟩
        · right
          refine ⟨Q₀ :: l₁, Q, l₂, by rw [hl]; rfl, h₂, h₁, hlt, ?_⟩
          intro Q' hQ'
          rcases List.mem_cons.mp hQ' with h | h
          · subst h; exact lt_of_lt_of_le hlt (le_of_not_lt h₀)
          · exact hall Q' h

/-- C1: for every multi-subset and every `lambda ≥ 0`, the cost computed by
`MultiSubset::computeCost` is the minimum of the atomic option
`1 + lambda * loss` and the summed costs of the multi-partitions (it is a
lower bound of all of them and is attained by one of them); the recorded
chosen partition, when not null, is strictly cheaper than the atomic option
and than every multi-partition scanned before it; and when no
multi-partition is strictly cheaper than the atomic option the chosen
partition is null (ties go to the atomic block). -/
theorem C1_cost_recurrence (lam : ℚ) (hlam : 0 ≤ lam) (loss : ℚ)
    (mps : List (List MSub)) :
    (costOf lam (.mk loss mps) ≤ 1 + lam * loss ∧
      (∀ Q ∈ mps, costOf lam (.mk loss mps) ≤ sumCosts lam Q) ∧
      (costOf lam (.mk loss mps) = 1 + lam * loss ∨
        ∃ Q ∈ mps, costOf lam (.mk loss mps) = sumCosts lam Q)) ∧
    (∀ Q, chosenOf lam (.mk loss mps) = some Q →
      ∃ l₁ l₂, mps = l₁ ++ Q :: l₂ ∧
        sumCosts lam Q < 1 + lam * loss ∧
        ∀ Q' ∈ l₁, sumCosts lam Q < sumCosts lam Q') ∧
    ((∀ Q ∈ mps, 1 + lam * loss ≤ sumCosts lam Q) →
      chosenOf lam (.mk loss mps) = none) := by
  have hunfold : computeCost lam (.mk loss mps)
      = costFold lam (1 + lam * loss, none) mps := by rw [computeCost]
  refine ⟨⟨?_, ?_, ?_⟩, ?_, ?_⟩
  · rw [costOf, hunfold]; exact costFold_le_acc lam _ mps
  · intro Q hQ; rw [costOf, hunfold]; exact costFold_le_mem lam _ mps Q hQ
  · rw [costOf, hunfold]
    rcases costFold_attained lam (1 + lam * loss, none) mps with h | ⟨Q, hQ, h⟩
    · left; exact h
    · right; exact ⟨Q, hQ, h⟩
  · intro Q hQ
    rw [chosenOf, hunfold] at hQ
    rcases costFold_chosen lam (1 + lam * loss, none) mps with ⟨h₂, _⟩ | ⟨l₁, Q', l₂, hl, h₂, _, hlt, hall⟩
    · rw [hQ] at h₂; cases h₂
    · rw [hQ] at h₂
      cases h₂
      exact ⟨l₁, l₂, hl, hlt, hall⟩
  · intro hge
    rw [chosenOf, hunfold]
    rcases costFold_chosen lam (1 + lam * loss, none) mps with ⟨h₂, _⟩ | ⟨l₁, Q', l₂, hl, h₂, _, hlt, _⟩
    · exact h₂
    · exfalso
      have : Q' ∈ mps := by rw [hl]; exact List.mem_append_right _ (List.mem_cons_self ..)
      exact absurd (hge Q' this) (not_le.mpr hlt)

/-- Witness for C1 at `lambda = 1` on a multi-subset with one
two-part multi-partition. -/
theorem C1_cost_recurrence_witness :
    (0 : ℚ) ≤ 1 ∧
    ((costOf 1 (.mk 2 [[MSub.mk 0 [], MSub.mk 3 []]]) ≤ 1 + 1 * 2 ∧
      (∀ Q ∈ [[MSub.mk 0 [], MSub.mk 3 []]],
        costOf 1 (.mk 2 [[MSub.mk 0 [], MSub.mk 3 []]]) ≤ sumCosts 1 Q) ∧
      (costOf 1 (.mk 2 [[MSub.mk 0 [], MSub.mk 3 []]]) = 1 + 1 * 2 ∨
        ∃ Q ∈ [[MSub.mk 0 [], MSub.mk 3 []]],
          costOf 1 (.mk 2 [[MSub.mk 0 [], MSub.mk 3 []]]) = sumCosts 1 Q)) ∧
    (∀ Q, chosenOf 1 (.mk 2 [[MSub.mk 0 [], MSub.mk 3 []]]) = some Q →
      ∃ l₁ l₂, [[MSub.mk 0 [], MSub.mk 3 []]] = l₁ ++ Q :: l₂ ∧
        sumCosts 1 Q < 1 + 1 * 2 ∧
        ∀ Q' ∈ l₁, sumCosts 1 Q < sumCosts 1 Q') ∧
    ((∀ Q ∈ [[MSub.mk 0 [], MSub.mk 3 []]], 1 + 1 * 2 ≤ sumCosts 1 Q) →
      chosenOf 1 (.mk 2 [[MSub.mk 0 [], MSub.mk 3 []]]) = none)) :=
  ⟨by norm_num, C1_cost_recurrence 1 (by norm_num) 2 [[MSub.mk 0 [], MSub.mk 3 []]]⟩

mutual

/-- Every `loss` in the (unfolded) lattice below this multi-subset is
non-negative. -/
def nonnegLossB : MSub → Bool
  | .mk l mps => decide ((0 : ℚ) ≤ l) && nonnegLossList mps

/-- `nonnegLossB` over a list of multi-partitions. -/
def nonnegLossList : List (List MSub) → Bool
  | [] => true
  | Q :: rest => nonnegLossParts Q && nonnegLossList rest

/-- `nonnegLossB` over the parts of one multi-partition. -/
def nonnegLossParts : List MSub → Bool
  | [] => true
  | M :: Ms => nonnegLossB M && nonnegLossParts Ms

end

mutual

/-- Every multi-partition in the (unfolded) lattice below this multi-subset
has at least two parts. -/
def minTwoPartsB : MSub → Bool
  | .mk _ mps => minTwoPartsList mps

/-- `minTwoPartsB` over a list of multi-partitions. -/
def minTwoPartsList : List (List MSub) → Bool
  | [] => true
  | Q :: rest => decide (2 ≤ Q.length) && minTwoPartsParts Q && minTwoPartsList rest

/-- `minTwoPartsB` over the parts of one multi-partition. -/
def minTwoPartsParts : List MSub → Bool
  | [] => true
  | M :: Ms => minTwoPartsB M && minTwoPartsParts Ms

end

theorem nonnegLossParts_mem {Q : List MSub} {M : MSub}
    (h : nonnegLossParts Q = true) (hM : M ∈ Q) : nonnegLossB M = true := by
  induction Q with
  | nil => cases hM
  | cons M' Ms ih =>
      rw [nonnegLossParts, Bool.and_eq_true] at h
      rcases List.mem_cons.mp hM with h' | h'
      · subst h'; exact h.1
      · exact ih h.2 h'

theorem nonnegLossList_mem {mps : List (List MSub)} {Q : List MSub}
    (h : nonnegLossList mps = true) (hQ : Q ∈ mps) : nonnegLossParts Q = true := by
  induction mps with
  | nil => cases hQ
  | cons Q' rest ih =>
      rw [nonnegLossList, Bool.and_eq_true] at h
      rcases List.mem_cons.mp hQ with h' | h'
      · subst h'; exact h.1
      · exact ih h.2 h'

theorem minTwoPartsParts_mem {Q : List MSub} {M : MSub}
    (h : minTwoPartsParts Q = true) (hM : M ∈ Q) : minTwoPartsB M = true := by
  induction Q with
  | nil => cases hM
  | cons M' Ms ih =>
      rw [minTwoPartsParts, Bool.and_eq_true] at h
      rcases List.mem_cons.mp hM with h' | h'
      · subst h'; exact h.1
      · exact ih h.2 h'

theorem minTwoPartsList_mem {mps : List (List MSub)} {Q : List MSub}
    (h : minTwoPartsList mps = true) (hQ : Q ∈ mps) :
    2 ≤ Q.length ∧ minTwoPartsParts Q = true := by
  induction mps with
  | nil => cases hQ
  | cons Q' rest ih =>
      rw [minTwoPartsList, Bool.and_eq_true, Bool.and_eq_true] at h
      rcases List.mem_cons.mp hQ with h' | h'
      · subst h'; exact ⟨of_decide_eq_true h.1.1, h.1.2⟩
      · exact ih h.2 h'

theorem sizeOf_lt_of_mem_mem {M : MSub} {Q : List MSub} {l : ℚ}
    {mps : List (List MSub)} (hQ : Q ∈ mps) (hM : M ∈ Q) :
    sizeOf M < sizeOf (MSub.mk l mps) := by
  have h1 : sizeOf M < sizeOf Q := List.sizeOf_lt_of_mem hM
  have h2 : sizeOf Q < sizeOf mps := List.sizeOf_lt_of_mem hQ
  have h3 : sizeOf (MSub.mk l mps) = 1 + sizeOf l + sizeOf mps := by simp
  omega

theorem length_le_sumCosts (lam : ℚ) (Q : List MSub)
    (h : ∀ M ∈ Q, 1 ≤ costOf lam M) : (Q.length : ℚ) ≤ sumCosts lam Q := by
  induction Q with
  | nil => simp [sumCosts]
  | cons M Ms ih =>
      rw [sumCosts]
      have h1 : 1 ≤ costOf lam M := h M (List.mem_cons_self ..)
      have h2 : (Ms.length : ℚ) ≤ sumCosts lam Ms :=
        ih (fun M' hM' => h M' (List.mem_cons_of_mem _ hM'))
      rw [costOf] at h1
      simp only [List.length_cons]
      push_cast
      linarith

theorem one_le_costOf (lam : ℚ) (hlam : 0 ≤ lam) :
    ∀ M : MSub, nonnegLossB M = true → minTwoPartsB M = true →
      1 ≤ costOf lam M := by
  have main : ∀ n : ℕ, ∀ M : MSub, sizeOf M < n →
      nonnegLossB M = true → minTwoPartsB M = true → 1 ≤ costOf lam M := by
    intro n
    induction n with
    | zero => intro M h; omega
    | succ n ih =>
      intro M hn h1 h2
      rcases M with ⟨l, mps⟩
      rw [nonnegLossB, Bool.and_eq_true] at h1
      rw [minTwoPartsB] at h2
      have hcases := costFold_attained lam (1 + lam * l, none) mps
      rw [costOf, computeCost]
      rcases hcases with h | ⟨Q, hQ, h⟩
      · rw [h]
        have : 0 ≤ lam * l := mul_nonneg hlam (of_decide_eq_true h1.1)
        show (1 : ℚ) ≤ 1 + lam * l
        linarith
      · rw [h]
        have hQ2 := minTwoPartsList_mem h2 hQ
        have hall : ∀ M' ∈ Q, 1 ≤ costOf lam M' := by
          intro M' hM'
          have hsz : sizeOf M' < n := by
            have := sizeOf_lt_of_mem_mem (l := l) hQ hM'
            omega
          exact ih M' hsz
            (nonnegLossParts_mem (nonnegLossList_mem h1.2 hQ) hM')
            (minTwoPartsParts_mem hQ2.2 hM')
        have := length_le_sumCosts lam Q hall
        have hlen : (2 : ℚ) ≤ (Q.length : ℚ) := by exact_mod_cast hQ2.1
        linarith
  intro M
  exact main (sizeOf M + 1) M (by omega)

/-- C9: for `lambda ≥ 0`, if every loss in the lattice is non-negative and
every multi-partition has at least two parts, the cost set by
`MultiSubset::computeCost` on every visited multi-subset satisfies
`1 ≤ cost ≤ 1 + lambda * loss` (the hypotheses being hereditary, the bound
instantiates at every multi-subset the run visits). -/
theorem C9_cost_bounds (lam : ℚ) (M : MSub) (hlam : 0 ≤ lam)
    (h1 : nonnegLossB M = true) (h2 : minTwoPartsB M = true) :
    1 ≤ costOf lam M ∧ costOf lam M ≤ 1 + lam * M.loss := by
  refine ⟨one_le_costOf lam hlam M h1 h2, ?_⟩
  rcases M with ⟨l, mps⟩
  rw [costOf, computeCost, MSub.loss]
  exact costFold_le_acc lam _ mps

/-- Witness for C9 at `lambda = 1` on a multi-subset with one
two-part multi-partition, all losses non-negative. -/
theorem C9_cost_bounds_witness :
    (0 : ℚ) ≤ 1 ∧
    nonnegLossB (.mk 1 [[MSub.mk 0 [], MSub.mk 2 []]]) = true ∧
    minTwoPartsB (.mk 1 [[MSub.mk 0 [], MSub.mk 2 []]]) = true ∧
    (1 ≤ costOf 1 (.mk 1 [[MSub.mk 0 [], MSub.mk 2 []]]) ∧
      costOf 1 (.mk 1 [[MSub.mk 0 [], MSub.mk 2 []]]) ≤
        1 + 1 * (MSub.mk 1 [[MSub.mk 0 [], MSub.mk 2 []]]).loss) :=
  ⟨by norm_num, by decide, by decide,
    C9_cost_bounds 1 (.mk 1 [[MSub.mk 0 [], MSub.mk 2 []]]) (by norm_num)
      (by decide) (by decide)⟩

theorem chosenOf_sizeOf_lt {lam : ℚ} {M : MSub} {Q : List MSub}
    (h : chosenOf lam M = some Q) : sizeOf Q < sizeOf M := by
  rcases M with ⟨l, mps⟩
  rw [chosenOf, computeCost] at h
  rcases costFold_chosen lam (1 + lam * l, none) mps with ⟨h₂, _⟩ | ⟨l₁, Q', l₂, hl, h₂, _, _, _⟩
  · rw [h] at h₂; cases h₂
  · rw [h] at h₂
    cases h₂
    have hQ : Q ∈ mps := by
      rw [hl]; exact List.mem_append_right _ (List.mem_cons_self ..)
    have h1 : sizeOf Q < sizeOf mps := List.sizeOf_lt_of_mem hQ
    have h2 : sizeOf (MSub.mk l mps) = 1 + sizeOf l + sizeOf mps := by simp
    omega

theorem sizeOf_append_list (l₁ l₂ : List MSub) :
    sizeOf (l₁ ++ l₂) + 1 = sizeOf l₁ + sizeOf l₂ := by
  induction l₁ with
  | nil => simp; omega
  | cons a t ih => simp only [List.cons_append, List.cons.sizeOf_spec]; omega

/-- The reconstruction queue of `MultiSet::getMultiPartition`: pop a
multi-subset; if its chosen partition is null, emit it into the result;
otherwise push the parts of its chosen partition onto the queue. -/
def reconstruct (lam : ℚ) : List MSub → List MSub
  | [] => []
  | M :: rest =>
      match h : chosenOf lam M with
      | none => M :: reconstruct lam rest
      | some Q => reconstruct lam (rest ++ Q)
termination_by l => sizeOf l
decreasing_by
  · simp
  · have h1 := chosenOf_sizeOf_lt h
    have h2 := sizeOf_append_list Ms Q
    simp
    omega

theorem costFold_no_update (lam : ℚ) (acc : ℚ × Option (List MSub))
    (l : List (List MSub)) (h : ∀ Q ∈ l, ¬ sumCosts lam Q < acc.1) :
    costFold lam acc l = acc := by
  induction l with
  | nil => rw [costFold]
  | cons Q rest ih =>
      rw [costFold, if_neg (h Q (List.mem_cons_self ..))]
      exact ih (fun Q' hQ' => h Q' (List.mem_cons_of_mem _ hQ'))

theorem sumCosts_eq_length (lam : ℚ) (Q : List MSub)
    (h : ∀ M ∈ Q, (computeCost lam M).1 = 1) :
    sumCosts lam Q = (Q.length : ℚ) := by
  induction Q with
  | nil => simp [sumCosts]
  | cons M Ms ih =>
      rw [sumCosts, h M (List.mem_cons_self ..),
        ih (fun M' hM' => h M' (List.mem_cons_of_mem _ hM'))]
      simp only [List.length_cons]
      push_cast
      ring

theorem computeCost_zero (M : MSub) (h : minTwoPartsB M = true) :
    computeCost 0 M = (1, none) := by
  have main : ∀ n : ℕ, ∀ M : MSub, sizeOf M < n → minTwoPartsB M = true →
      computeCost 0 M = (1, none) := by
    intro n
    induction n with
    | zero => intro M h; omega
    | succ n ih =>
      intro M hn h2
      rcases M with ⟨l, mps⟩
      rw [minTwoPartsB] at h2
      rw [computeCost]
      have hnolt : ∀ Q ∈ mps, ¬ sumCosts 0 Q < (1 + 0 * l, (none : Option (List MSub))).1 := by
        intro Q hQ
        have hQ2 := minTwoPartsList_mem h2 hQ
        have hsum : sumCosts 0 Q = (Q.length : ℚ) := by
          refine sumCosts_eq_length 0 Q (fun M' hM' => ?_)
          have hsz : sizeOf M' < n := by
            have := sizeOf_lt_of_mem_mem (l := l) hQ hM'
            omega
          rw [ih M' hsz (minTwoPartsParts_mem hQ2.2 hM')]
        rw [hsum]
        show ¬ (Q.length : ℚ) < 1 + 0 * l
        have : (2 : ℚ) ≤ (Q.length : ℚ) := by exact_mod_cast hQ2.1
        push_neg
        linarith
      rw [costFold_no_update 0 _ mps hnolt]
      norm_num
  exact main (sizeOf M + 1) M (by omega) h

/-- C5: for `lambda = 0`, assuming every multi-partition in the lattice has
at least two parts, the cost of the top multi-subset is 1, its chosen
partition is null, and the reconstruction queue of
`MultiSet::getMultiPartition (0)` returns the partition consisting of
exactly the top multi-subset. -/
theorem C5_lambda_zero (M : MSub) (h : minTwoPartsB M = true) :
    costOf 0 M = 1 ∧ chosenOf 0 M = none ∧ reconstruct 0 [M] = [M] := by
  have hM := computeCost_zero M h
  have hc : costOf 0 M = 1 := by rw [costOf, hM]
  have hch : chosenOf 0 M = none := by rw [chosenOf, hM]
  refine ⟨hc, hch, ?_⟩
  rw [reconstruct]
  split
  · rw [reconstruct]
  · rename_i Q hQ
    rw [hch] at hQ
    cases hQ

/-- Witness for C5 on a multi-subset with one two-part multi-partition. -/
theorem C5_lambda_zero_witness :
    minTwoPartsB (.mk 7 [[MSub.mk 1 [], MSub.mk 2 []]]) = true ∧
    (costOf 0 (.mk 7 [[MSub.mk 1 [], MSub.mk 2 []]]) = 1 ∧
      chosenOf 0 (.mk 7 [[MSub.mk 1 [], MSub.mk 2 []]]) = none ∧
      reconstruct 0 [.mk 7 [[MSub.mk 1 [], MSub.mk 2 []]]] =
        [.mk 7 [[MSub.mk 1 [], MSub.mk 2 []]]]) :=
  ⟨by decide, C5_lambda_zero (.mk 7 [[MSub.mk 1 [], MSub.mk 2 []]]) (by decide)⟩

/-- A per-dimension subset (C++ class `Subset`): the `bot` flag, the wrapped
`element` (its dense `Element::id`, meaningful only when `bot` is set), and
the list of `partitions`, each the ordered list of its part subsets.  The
C++ subsets reference each other through pointers forming a DAG (a
documented precondition excludes cycles); the inductive unfolds the DAG
into a tree, which preserves the value of every computed quantity. -/
inductive Subset : Type where
  | mk (bot : Bool) (element : ℕ) (partitions : List (List Subset))

/-- The `bot` flag of a subset. -/
def Subset.bot : Subset → Bool
  | .mk b _ _ => b

/-- The `element` field of a subset (dense element id). -/
def Subset.element : Subset → ℕ
  | .mk _ e _ => e

/-- The `partitions` list of a subset. -/
def Subset.partitions : Subset → List (List Subset)
  | .mk _ _ ps => ps

mutual

/-- `Subset::getElements`: appends, into the by-reference list, the
subset's element if it is `bot`, and otherwise the recursive closure
through the parts of `partitions.front()`, in part order; an intermediate
subset with no partition contributes nothing (the C++ error path prints a
diagnostic and returns).  Modelled as the list a call appends to a fresh
list. -/
def Subset.getElements : Subset → List ℕ
  | .mk true e _ => [e]
  | .mk false _ [] => []
  | .mk false _ (p :: _) => getElementsParts p

/-- The loop `for (Subset *subset : partitions.front()->subsets)
subset->getElements (elements)`: concatenation of the closures of a list of
subsets, in order. -/
def getElementsParts : List Subset → List ℕ
  | [] => []
  | S :: Ss => S.getElements ++ getElementsParts Ss

end

/-- An atomic element `a` is reachable from a subset: a `bot` subset
reaches exactly its wrapped element; any other subset reaches whatever some
part of any one of its partitions reaches. -/
inductive Reaches : Subset → ℕ → Prop where
  | bot (e : ℕ) (ps : List (List Subset)) : Reaches (.mk true e ps) e
  | step {p : List Subset} {S' : Subset} {a : ℕ} (e : ℕ)
      (ps : List (List Subset)) (hp : p ∈ ps) (hS : S' ∈ p)
      (h : Reaches S' a) : Reaches (.mk false e ps) a

/-- No duplicate in a list of element ids. -/
def nodupB : List ℕ → Bool
  | [] => true
  | a :: t => (decide (a ∉ t)) && nodupB t

/-- The lists in the argument are pairwise disjoint. -/
def pairwiseDisjB : List (List ℕ) → Bool
  | [] => true
  | L :: Ls => (decide (∀ a ∈ L, ∀ L' ∈ Ls, a ∉ L')) && pairwiseDisjB Ls

/-- Two lists of element ids have the same members. -/
def sameMembersB (l m : List ℕ) : Bool :=
  decide ((∀ a ∈ l, a ∈ m) ∧ (∀ a ∈ m, a ∈ l))

mutual

/-- The documented set-cover precondition of the input (spec data model):
the subset's closure is duplicate-free and, for each of its partitions, the
parts' closures are pairwise disjoint, their union has exactly the members
of the owner's closure, and the parts satisfy the same precondition
recursively. -/
def Subset.goodB : Subset → Bool
  | .mk b e ps =>
      nodupB (Subset.getElements (.mk b e ps)) &&
      goodPartitionsB (Subset.getElements (.mk b e ps)) ps

/-- `Subset.goodB` for each partition of an owner with closure `cl`. -/
def goodPartitionsB (cl : List ℕ) : List (List Subset) → Bool
  | [] => true
  | p :: rest =>
      pairwiseDisjB (p.map Subset.getElements) &&
      sameMembersB (getElementsParts p) cl &&
      goodPartsB p && goodPartitionsB cl rest

/-- `Subset.goodB` for every part in a partition. -/
def goodPartsB : List Subset → Bool
  | [] => true
  | S :: Ss => S.goodB && goodPartsB Ss

end

/-- Every component subset of a multi-subset satisfies the cover
precondition. -/
def goodMultiB (M : List Subset) : Bool := M.all Subset.goodB

/-- The Cartesian product of the per-dimension element lists, in the
enumeration order of `MultiSubset::getMultiElements` (dimension 0 varies
fastest); each cell is the tuple of element ids.  The C++ do-while assumes
every list non-empty (elsewhere a documented data error); with a non-empty
list per dimension it enumerates exactly these tuples. -/
def cartProd : List (List ℕ) → List (List ℕ)
  | [] => [[]]
  | L :: Ls => (cartProd Ls).flatMap (fun t => L.map (fun e => e :: t))

/-- The cells covered by a multi-subset: the Cartesian product of the
closures of its component subsets (`MultiSubset::getMultiElements`). -/
def cellsOf (M : List Subset) : List (List ℕ) := cartProd (M.map Subset.getElements)

/-- The multi-partitions of a multi-subset, in the order built by
`MultiSet::buildMultiSubsets`: dimensions in ascending order, partitions of
each component in insertion order, each multi-partition substituting the
parts of one per-dimension partition into that dimension. -/
def multiPartitionsOf : List Subset → List (List (List Subset))
  | [] => []
  | S :: rest =>
      (S.partitions.map (fun p => p.map (fun pS => pS :: rest))) ++
      (multiPartitionsOf rest).map (fun Q => Q.map (fun N => S :: N))

/-- The aggregate fields computed by `MultiSubset::computeLoss`:
`sumValue`, `sumInfo` and `multiElementNb`. -/
structure Aggs where
  sumValue : ℚ
  sumInfo : ℚ
  multiElementNb : ℕ
deriving DecidableEq

/-- Pointwise accumulation of aggregates, as in the summation loop of
`MultiSubset::computeLoss`. -/
def addAggs (a b : Aggs) : Aggs :=
  ⟨a.sumValue + b.sumValue, a.sumInfo + b.sumInfo,
    a.multiElementNb + b.multiElementNb⟩

/-- The leaf branch of `MultiSubset::computeLoss`: iterate the covered
cells; `sumValue += v`, `sumInfo -= v * log2 v` guarded by `v > 0`,
`multiElementNb++`.  `v` is the measure tensor, `f` stands for `log2`. -/
def leafAggs (v : List ℕ → ℚ) (f : ℚ → ℚ) (M : List Subset) : Aggs :=
  (cellsOf M).foldl
    (fun acc c =>
      ⟨acc.sumValue + v c,
        if 0 < v c then acc.sumInfo - v c * f (v c) else acc.sumInfo,
        acc.multiElementNb + 1⟩)
    ⟨0, 0, 0⟩

theorem headMP_sizeOf_lt :
    ∀ (M : List Subset) (Q : List (List Subset)) (M' : List Subset),
      (multiPartitionsOf M).head? = some Q → M' ∈ Q → sizeOf M' < sizeOf M := by
  intro M
  induction M with
  | nil => intro Q M' h _; simp [multiPartitionsOf] at h
  | cons S rest ih =>
      intro Q M' h hM'
      rcases S with ⟨b, e, ps⟩
      rw [multiPartitionsOf] at h
      cases hps : ps with
      | cons p ps' =>
          subst hps
          simp only [Subset.partitions, List.map_cons, List.cons_append,
            List.head?_cons, Option.some.injEq] at h
          subst h
          rcases List.mem_map.mp hM' with ⟨pS, hpS, hM'eq⟩
          subst hM'eq
          have h1 : sizeOf pS < sizeOf p := List.sizeOf_lt_of_mem hpS
          have h2 : sizeOf p < sizeOf (p :: ps') :=
            List.sizeOf_lt_of_mem (List.mem_cons_self ..)
          have h3 : sizeOf (Subset.mk b e (p :: ps')) = 1 + sizeOf b + sizeOf e + sizeOf (p :: ps') := by
            simp
          have h4 : sizeOf (pS :: rest) = 1 + sizeOf pS + sizeOf rest := by simp
          have h5 : sizeOf (Subset.mk b e (p :: ps') :: rest)
              = 1 + sizeOf (Subset.mk b e (p :: ps')) + sizeOf rest := by simp
          omega
      | nil =>
          subst hps
          simp only [Subset.partitions, List.map_nil, List.nil_append,
            List.head?_map] at h
          rcases Option.map_eq_some'.mp h with ⟨Q', hQ', hQeq⟩
          subst hQeq
          rcases List.mem_map.mp hM' with ⟨N, hN, hM'eq⟩
          subst hM'eq
          have h1 : sizeOf N < sizeOf rest := ih Q' N hQ' hN
          have h2 : sizeOf (Subset.mk b e [] :: N)
              = 1 + sizeOf (Subset.mk b e []) + sizeOf N := by simp
          have h3 : sizeOf (Subset.mk b e [] :: rest)
              = 1 + sizeOf (Subset.mk b e []) + sizeOf rest := by simp
          omega


/-- `MultiSubset::computeLoss`, value level: the aggregates a call leaves
on the multi-subset.  An interior multi-subset (one with multi-partitions)
sums the aggregates of the parts of `multiPartitions.front()`; a leaf
iterates its covered cells.  The C++ recursion into all multi-partitions
only memoises; the resulting field values are the ones computed here. -/
def computeAggs (v : List ℕ → ℚ) (f : ℚ → ℚ) (M : List Subset) : Aggs :=
  match hQ : (multiPartitionsOf M).head? with
  | some Q =>
      Q.attach.foldl (fun acc x => addAggs acc (computeAggs v f x.1)) ⟨0, 0, 0⟩
  | none => leafAggs v f M
termination_by sizeOf M
decreasing_by exact headMP_sizeOf_lt M Q x.1 hQ x.2

/-- The `loss` field left by `MultiSubset::computeLoss`:
`loss = sumValue * log2 (multiElementNb) - sumInfo`, then
`loss -= sumValue * log2 (sumValue)` when `sumValue > 0`. -/
def lossOf (v : List ℕ → ℚ) (f : ℚ → ℚ) (M : List Subset) : ℚ :=
  (computeAggs v f M).sumValue * f ((computeAggs v f M).multiElementNb : ℚ)
    - (computeAggs v f M).sumInfo
    - (if 0 < (computeAggs v f M).sumValue then
        (computeAggs v f M).sumValue * f ((computeAggs v f M).sumValue) else 0)

/-- Modelled from the spec (§4.5): `sumI(M) = Σ over covered cells with
v > 0 of v · log₂ v`.  Stated from the spec's words, to be compared with
the `sumInfo` the code computes. -/
def specSumI (v : List ℕ → ℚ) (f : ℚ → ℚ) (M : List Subset) : ℚ :=
  ((cellsOf M).map (fun c => if 0 < v c then v c * f (v c) else 0)).sum

/-- Iterated sum of a cell function over the Cartesian product of
per-dimension lists: the semantic reference value for the aggregates. -/
def sumCells (g : List ℕ → ℚ) : List (List ℕ) → ℚ
  | [] => g []
  | L :: Ls => (L.map (fun e => sumCells (fun t => g (e :: t)) Ls)).sum

theorem list_sum_map_add {α : Type} (l : List α) (g h : α → ℚ) :
    (l.map (fun x => g x + h x)).sum = (l.map g).sum + (l.map h).sum := by
  induction l with
  | nil => simp
  | cons a t ih => simp only [List.map_cons, List.sum_cons, ih]; ring

theorem list_sum_map_neg {α : Type} (l : List α) (g : α → ℚ) :
    (l.map (fun x => -(g x))).sum = -((l.map g).sum) := by
  induction l with
  | nil => simp
  | cons a t ih => simp only [List.map_cons, List.sum_cons, ih]; ring

theorem list_sum_comm {α β : Type} (A : List α) (B : List β) (g : α → β → ℚ) :
    (A.map (fun a => (B.map (fun b => g a b)).sum)).sum
      = (B.map (fun b => (A.map (fun a => g a b)).sum)).sum := by
  induction A with
  | nil => simp
  | cons a A' ih =>
      simp only [List.map_cons, List.sum_cons, ih]
      rw [← list_sum_map_add]

theorem flatMap_map_sum {α β : Type} (l : List α) (F : α → List β) (g : β → ℚ) :
    ((l.flatMap F).map g).sum = (l.map (fun x => ((F x).map g).sum)).sum := by
  induction l with
  | nil => simp
  | cons a t ih =>
      simp only [List.flatMap_cons, List.map_append, List.sum_append,
        List.map_cons, List.sum_cons, ih]

/-- Summing a cell function over the Cartesian-product list equals the
iterated sum. -/
theorem cartProd_map_sum (g : List ℕ → ℚ) (Ls : List (List ℕ)) :
    ((cartProd Ls).map g).sum = sumCells g Ls := by
  induction Ls generalizing g with
  | nil => simp [cartProd, sumCells]
  | cons L Ls' ih =>
      rw [cartProd, sumCells, flatMap_map_sum]
      have h1 : ∀ t : List ℕ, ((L.map (fun e => e :: t)).map g).sum
          = (L.map (fun e => g (e :: t))).sum := by
        intro t; rw [List.map_map]; rfl
      calc ((cartProd Ls').map (fun t => ((L.map (fun e => e :: t)).map g).sum)).sum
          = ((cartProd Ls').map (fun t => (L.map (fun e => g (e :: t))).sum)).sum := by
            simp only [h1]
        _ = (L.map (fun e => ((cartProd Ls').map (fun t => g (e :: t))).sum)).sum := by
            rw [list_sum_comm]
        _ = (L.map (fun e => sumCells (fun t => g (e :: t)) Ls')).sum := by
            simp only [ih]

theorem list_sum_map_one {α : Type} (l : List α) :
    (l.map (fun _ => (1 : ℚ))).sum = (l.length : ℚ) := by
  induction l with
  | nil => simp
  | cons a t ih =>
      simp only [List.map_cons, List.sum_cons, List.length_cons, ih]
      push_cast
      ring

theorem cartProd_length (Ls : List (List ℕ)) :
    ((cartProd Ls).length : ℚ) = sumCells (fun _ => (1 : ℚ)) Ls := by
  have h : ((cartProd Ls).map (fun _ => (1 : ℚ))).sum = sumCells (fun _ => 1) Ls :=
    cartProd_map_sum _ Ls
  rw [← h, list_sum_map_one]

/-- Splitting the head coordinate of an iterated sum along a
concatenation. -/
theorem sumCells_append_head (g : List ℕ → ℚ) (L₁ L₂ : List ℕ)
    (Ls : List (List ℕ)) :
    sumCells g ((L₁ ++ L₂) :: Ls) = sumCells g (L₁ :: Ls) + sumCells g (L₂ :: Ls) := by
  rw [sumCells, sumCells, sumCells, List.map_append, List.sum_append]

/-- Permuting the head coordinate leaves the iterated sum unchanged. -/
theorem sumCells_perm_head (g : List ℕ → ℚ) {L L' : List ℕ}
    (Ls : List (List ℕ)) (h : L.Perm L') :
    sumCells g (L :: Ls) = sumCells g (L' :: Ls) := by
  rw [sumCells, sumCells]
  exact (h.map _).sum_eq

theorem mem_getElementsParts {a : ℕ} {p : List Subset} :
    a ∈ getElementsParts p ↔ ∃ S ∈ p, a ∈ S.getElements := by
  induction p with
  | nil => simp [getElementsParts]
  | cons S Ss ih =>
      rw [getElementsParts, List.mem_append, ih]
      constructor
      · rintro (h | ⟨S', hS', h⟩)
        · exact ⟨S, List.mem_cons_self .., h⟩
        · exact ⟨S', List.mem_cons_of_mem _ hS', h⟩
      · rintro ⟨S', hS', h⟩
        rcases List.mem_cons.mp hS' with h' | h'
        · subst h'; exact Or.inl h
        · exact Or.inr ⟨S', h', h⟩

theorem nodupB_iff {l : List ℕ} : nodupB l = true ↔ l.Nodup := by
  induction l with
  | nil => simp [nodupB]
  | cons a t ih =>
      rw [nodupB, Bool.and_eq_true, decide_eq_true_iff, ih, List.nodup_cons]

theorem goodB_parts_spec {S : Subset} (h : S.goodB = true) :
    nodupB S.getElements = true ∧
    goodPartitionsB S.getElements S.partitions = true := by
  rcases S with ⟨b, e, ps⟩
  rw [Subset.goodB, Bool.and_eq_true] at h
  exact ⟨h.1, h.2⟩

theorem goodPartitionsB_mem {cl : List ℕ} {ps : List (List Subset)}
    {p : List Subset} (h : goodPartitionsB cl ps = true) (hp : p ∈ ps) :
    pairwiseDisjB (p.map Subset.getElements) = true ∧
    sameMembersB (getElementsParts p) cl = true ∧
    goodPartsB p = true := by
  induction ps with
  | nil => cases hp
  | cons p' rest ih =>
      rw [goodPartitionsB, Bool.and_eq_true, Bool.and_eq_true, Bool.and_eq_true] at h
      rcases List.mem_cons.mp hp with h' | h'
      · subst h'; exact ⟨h.1.1.1, h.1.1.2, h.1.2⟩
      · exact ih h.2 h'

theorem goodPartsB_mem {p : List Subset} {S : Subset}
    (h : goodPartsB p = true) (hS : S ∈ p) : S.goodB = true := by
  induction p with
  | nil => cases hS
  | cons S' Ss ih =>
      rw [goodPartsB, Bool.and_eq_true] at h
      rcases List.mem_cons.mp hS with h' | h'
      · subst h'; exact h.1
      · exact ih h.2 h'

theorem nodup_getElementsParts {p : List Subset}
    (hdisj : pairwiseDisjB (p.map Subset.getElements) = true)
    (hnd : ∀ S ∈ p, S.getElements.Nodup) :
    (getElementsParts p).Nodup := by
  induction p with
  | nil => simp [getElementsParts]
  | cons S Ss ih =>
      rw [List.map_cons, pairwiseDisjB, Bool.and_eq_true, decide_eq_true_iff] at hdisj
      rw [getElementsParts]
      refine List.Nodup.append (hnd S (List.mem_cons_self ..)) ?_ ?_
      · exact ih hdisj.2 (fun S' hS' => hnd S' (List.mem_cons_of_mem _ hS'))
      · intro a ha hb
        rcases mem_getElementsParts.mp hb with ⟨S', hS', h⟩
        exact hdisj.1 a ha S'.getElements (List.mem_map_of_mem _ hS') h

theorem goodB_perm {S : Subset} {p : List Subset}
    (hg : S.goodB = true) (hp : p ∈ S.partitions) :
    (getElementsParts p).Perm S.getElements := by
  have hspec := goodB_parts_spec hg
  have hmem := goodPartitionsB_mem hspec.2 hp
  have hnd₂ : S.getElements.Nodup := nodupB_iff.mp hspec.1
  have hnd₁ : (getElementsParts p).Nodup := by
    refine nodup_getElementsParts hmem.1 (fun S' hS' => ?_)
    exact nodupB_iff.mp (goodB_parts_spec (goodPartsB_mem hmem.2.2 hS')).1
  rw [List.perm_ext_iff_of_nodup hnd₁ hnd₂]
  have hsm := hmem.2.1
  rw [sameMembersB, decide_eq_true_iff] at hsm
  intro a
  exact ⟨fun h => hsm.1 a h, fun h => hsm.2 a h⟩

theorem goodMultiB_cons {S : Subset} {rest : List Subset} :
    goodMultiB (S :: rest) = true ↔ S.goodB = true ∧ goodMultiB rest = true := by
  rw [goodMultiB, goodMultiB, List.all_cons, Bool.and_eq_true]

theorem mp_members_good {M : List Subset} {Q : List (List Subset)}
    {N : List Subset} (hg : goodMultiB M = true)
    (hQ : Q ∈ multiPartitionsOf M) (hN : N ∈ Q) : goodMultiB N = true := by
  induction M generalizing Q N with
  | nil => cases hQ
  | cons S rest ih =>
      rw [goodMultiB_cons] at hg
      rw [multiPartitionsOf] at hQ
      rcases List.mem_append.mp hQ with h | h
      · rcases List.mem_map.mp h with ⟨p, hp, hQeq⟩
        subst hQeq
        rcases List.mem_map.mp hN with ⟨pS, hpS, hNeq⟩
        subst hNeq
        rw [goodMultiB_cons]
        have hpp := goodPartitionsB_mem (goodB_parts_spec hg.1).2 hp
        exact ⟨goodPartsB_mem hpp.2.2 hpS, hg.2⟩
      · rcases List.mem_map.mp h with ⟨Q', hQ', hQeq⟩
        subst hQeq
        rcases List.mem_map.mp hN with ⟨N', hN', hNeq⟩
        subst hNeq
        rw [goodMultiB_cons]
        exact ⟨hg.1, ih hg.2 hQ' hN'⟩

theorem sum_parts_head (g : List ℕ → ℚ) (Ls : List (List ℕ)) (p : List Subset) :
    (p.map (fun pS => sumCells g (pS.getElements :: Ls))).sum
      = sumCells g (getElementsParts p :: Ls) := by
  induction p with
  | nil => simp [getElementsParts, sumCells]
  | cons S Ss ih =>
      rw [List.map_cons, List.sum_cons, ih, getElementsParts,
        sumCells_append_head]

/-- Aggregate additivity over any multi-partition, semantically: summing an
iterated cell sum over the parts of a multi-partition gives the iterated
cell sum of the owner, under the cover precondition. -/
theorem mp_sum_sumCells :
    ∀ (M : List Subset) (g : List ℕ → ℚ) (Q : List (List Subset)),
      goodMultiB M = true → Q ∈ multiPartitionsOf M →
      (Q.map (fun N => sumCells g (N.map Subset.getElements))).sum
        = sumCells g (M.map Subset.getElements) := by
  intro M
  induction M with
  | nil => intro g Q _ hQ; cases hQ
  | cons S rest ih =>
      intro g Q hg hQ
      rw [goodMultiB_cons] at hg
      rw [multiPartitionsOf] at hQ
      rcases List.mem_append.mp hQ with h | h
      · rcases List.mem_map.mp h with ⟨p, hp, hQeq⟩
        subst hQeq
        rw [List.map_map]
        have hmap : ((fun N => sumCells g (N.map Subset.getElements)) ∘
            fun pS => pS :: rest)
            = fun pS => sumCells g (pS.getElements :: rest.map Subset.getElements) := by
          funext pS; rfl
        rw [hmap, sum_parts_head, List.map_cons]
        exact sumCells_perm_head g _ (goodB_perm hg.1 hp)
      · rcases List.mem_map.mp h with ⟨Q', hQ', hQeq⟩
        subst hQeq
        rw [List.map_map]
        have hmap : ((fun N => sumCells g (N.map Subset.getElements)) ∘
            fun N => S :: N)
            = fun N => (S.getElements.map
                (fun e => sumCells (fun t => g (e :: t)) (N.map Subset.getElements))).sum := by
          funext N
          show sumCells g ((S :: N).map Subset.getElements) = _
          rw [List.map_cons, sumCells]
        rw [hmap, list_sum_comm]
        have hinner : ∀ e,
            (Q'.map (fun N => sumCells (fun t => g (e :: t)) (N.map Subset.getElements))).sum
              = sumCells (fun t => g (e :: t)) (rest.map Subset.getElements) := by
          intro e
          exact ih (fun t => g (e :: t)) Q' hg.2 hQ'
        calc (S.getElements.map (fun e =>
              (Q'.map (fun N => sumCells (fun t => g (e :: t)) (N.map Subset.getElements))).sum)).sum
            = (S.getElements.map (fun e =>
                sumCells (fun t => g (e :: t)) (rest.map Subset.getElements))).sum := by
              simp only [hinner]
          _ = sumCells g ((S :: rest).map Subset.getElements) := by
              rw [List.map_cons, sumCells]

theorem foldl_addAggs {α : Type} (l : List α) (G : α → Aggs) (z : Aggs) :
    l.foldl (fun acc x => addAggs acc (G x)) z =
      ⟨z.sumValue + ((l.map G).map Aggs.sumValue).sum,
       z.sumInfo + ((l.map G).map Aggs.sumInfo).sum,
       z.multiElementNb + ((l.map G).map Aggs.multiElementNb).sum⟩ := by
  induction l generalizing z with
  | nil => simp
  | cons a t ih =>
      rw [List.foldl_cons, ih]
      simp only [addAggs, List.map_cons, List.sum_cons, Aggs.mk.injEq]
      refine ⟨by ring, by ring, by omega⟩

theorem attach_map_eq {α β : Type} (l : List α) (F : α → β) :
    l.attach.map (fun x => F x.1) = l.map F := by
  simp

theorem head?_mem {α : Type} {l : List α} {a : α} (h : l.head? = some a) :
    a ∈ l := by
  cases l with
  | nil => cases h
  | cons b t =>
      rw [List.head?_cons, Option.some.injEq] at h
      subst h
      exact List.mem_cons_self ..

theorem computeAggs_interior (v : List ℕ → ℚ) (f : ℚ → ℚ) (M : List Subset)
    (Q : List (List Subset)) (hQ : (multiPartitionsOf M).head? = some Q) :
    computeAggs v f M =
      ⟨(Q.map (fun N => (computeAggs v f N).sumValue)).sum,
       (Q.map (fun N => (computeAggs v f N).sumInfo)).sum,
       (Q.map (fun N => (computeAggs v f N).multiElementNb)).sum⟩ := by
  rw [computeAggs]
  split
  · rename_i Q' hQ'
    rw [hQ] at hQ'
    cases hQ'
    rw [foldl_addAggs, attach_map_eq Q (computeAggs v f)]
    simp only [Aggs.mk.injEq, List.map_map, Function.comp_def]
    refine ⟨by ring, by ring, by omega⟩
  · rename_i hn
    rw [hQ] at hn
    cases hn

theorem computeAggs_leaf (v : List ℕ → ℚ) (f : ℚ → ℚ) (M : List Subset)
    (h : multiPartitionsOf M = []) : computeAggs v f M = leafAggs v f M := by
  rw [computeAggs]
  split
  · rename_i Q' hQ'
    rw [h] at hQ'
    cases hQ'
  · rfl

theorem leafFold_spec (v : List ℕ → ℚ) (f : ℚ → ℚ) (cs : List (List ℕ))
    (z : Aggs) :
    cs.foldl (fun acc c =>
        (⟨acc.sumValue + v c,
          if 0 < v c then acc.sumInfo - v c * f (v c) else acc.sumInfo,
          acc.multiElementNb + 1⟩ : Aggs)) z
      = ⟨z.sumValue + (cs.map v).sum,
         z.sumInfo - (cs.map (fun c => if 0 < v c then v c * f (v c) else 0)).sum,
         z.multiElementNb + cs.length⟩ := by
  induction cs generalizing z with
  | nil => simp
  | cons c t ih =>
      rw [List.foldl_cons, ih]
      simp only [List.map_cons, List.sum_cons, List.length_cons, Aggs.mk.injEq]
      by_cases h : 0 < v c
      · rw [if_pos h, if_pos h]
        refine ⟨by ring, by ring, by omega⟩
      · rw [if_neg h, if_neg h]
        refine ⟨by ring, by ring, by omega⟩

theorem leafAggs_spec (v : List ℕ → ℚ) (f : ℚ → ℚ) (M : List Subset) :
    leafAggs v f M =
      ⟨((cellsOf M).map v).sum, -(specSumI v f M), (cellsOf M).length⟩ := by
  rw [leafAggs, leafFold_spec, specSumI]
  simp only [Aggs.mk.injEq]
  refine ⟨by ring, by ring, by omega⟩

/-- The aggregates computed by `MultiSubset::computeLoss` coincide, under
the cover precondition, with the direct sums over the covered cells. -/
theorem computeAggs_semantic (v : List ℕ → ℚ) (f : ℚ → ℚ) :
    ∀ (M : List Subset), goodMultiB M = true →
      (computeAggs v f M).sumValue = sumCells v (M.map Subset.getElements) ∧
      (computeAggs v f M).sumInfo
        = sumCells (fun c => if 0 < v c then -(v c * f (v c)) else 0)
            (M.map Subset.getElements) ∧
      ((computeAggs v f M).multiElementNb : ℚ)
        = sumCells (fun _ => 1) (M.map Subset.getElements) := by
  have main : ∀ n : ℕ, ∀ M : List Subset, sizeOf M < n → goodMultiB M = true →
      (computeAggs v f M).sumValue = sumCells v (M.map Subset.getElements) ∧
      (computeAggs v f M).sumInfo
        = sumCells (fun c => if 0 < v c then -(v c * f (v c)) else 0)
            (M.map Subset.getElements) ∧
      ((computeAggs v f M).multiElementNb : ℚ)
        = sumCells (fun _ => 1) (M.map Subset.getElements) := by
    intro n
    induction n with
    | zero => intro M h; omega
    | succ n ih =>
      intro M hn hg
      cases hhead : (multiPartitionsOf M).head? with
      | none =>
          have hmp : multiPartitionsOf M = [] := by
            cases hmps : multiPartitionsOf M with
            | nil => rfl
            | cons a t => rw [hmps, List.head?_cons] at hhead; cases hhead
          rw [computeAggs_leaf v f M hmp, leafAggs_spec]
          refine ⟨?_, ?_, ?_⟩
          · exact cartProd_map_sum v (M.map Subset.getElements)
          · show -(specSumI v f M) = _
            rw [specSumI]
            have hfun : ((cellsOf M).map
                  (fun c => if 0 < v c then -(v c * f (v c)) else 0)).sum
                = -(((cellsOf M).map
                  (fun c => if 0 < v c then v c * f (v c) else 0)).sum) := by
              rw [← list_sum_map_neg]
              refine congrArg List.sum (List.map_congr_left (fun c _ => ?_))
              by_cases h : 0 < v c
              · rw [if_pos h, if_pos h]
              · rw [if_neg h, if_neg h]; ring
            rw [← hfun]
            exact cartProd_map_sum _ (M.map Subset.getElements)
          · exact cartProd_length (M.map Subset.getElements)
      | some Q =>
          have hQmem : Q ∈ multiPartitionsOf M := head?_mem hhead
          rw [computeAggs_interior v f M Q hhead]
          have hparts : ∀ N ∈ Q,
              (computeAggs v f N).sumValue = sumCells v (N.map Subset.getElements) ∧
              (computeAggs v f N).sumInfo
                = sumCells (fun c => if 0 < v c then -(v c * f (v c)) else 0)
                    (N.map Subset.getElements) ∧
              ((computeAggs v f N).multiElementNb : ℚ)
                = sumCells (fun _ => 1) (N.map Subset.getElements) := by
            intro N hN
            have hsz : sizeOf N < n := by
              have := headMP_sizeOf_lt M Q N hhead hN
              omega
            exact ih N hsz (mp_members_good hg hQmem hN)
          refine ⟨?_, ?_, ?_⟩
          · rw [← mp_sum_sumCells M v Q hg hQmem]
            show ((Q.map (fun N => (computeAggs v f N).sumValue)).sum) = _
            congr 1
            refine List.map_congr_left (fun N hN => ?_)
            exact (hparts N hN).1
          · rw [← mp_sum_sumCells M _ Q hg hQmem]
            show ((Q.map (fun N => (computeAggs v f N).sumInfo)).sum) = _
            congr 1
            refine List.map_congr_left (fun N hN => ?_)
            exact (hparts N hN).2.1
          · rw [← mp_sum_sumCells M _ Q hg hQmem]
            show (((Q.map (fun N => (computeAggs v f N).multiElementNb)).sum : ℕ) : ℚ) = _
            rw [Nat.cast_list_sum, List.map_map]
            congr 1
            refine List.map_congr_left (fun N hN => ?_)
            exact (hparts N hN).2.2
  intro M
  exact main (sizeOf M + 1) M (by omega)

/-- C4: under the documented cover precondition, for every multi-subset `M`
and every multi-partition `Q` of `M`, the aggregates computed by
`MultiSubset::computeLoss` are additive: `sumValue`, `sumInfo` (before
normalisation) and `multiElementNb` of `M` each equal the sum of the same
field over the parts of `Q`. -/
theorem C4_aggregate_additivity (v : List ℕ → ℚ) (f : ℚ → ℚ)
    (M : List Subset) (Q : List (List Subset))
    (hg : goodMultiB M = true) (hQ : Q ∈ multiPartitionsOf M) :
    (computeAggs v f M).sumValue
      = (Q.map (fun N => (computeAggs v f N).sumValue)).sum ∧
    (computeAggs v f M).sumInfo
      = (Q.map (fun N => (computeAggs v f N).sumInfo)).sum ∧
    (computeAggs v f M).multiElementNb
      = (Q.map (fun N => (computeAggs v f N).multiElementNb)).sum := by
  have hM := computeAggs_semantic v f M hg
  have hparts : ∀ N ∈ Q,
      (computeAggs v f N).sumValue = sumCells v (N.map Subset.getElements) ∧
      (computeAggs v f N).sumInfo
        = sumCells (fun c => if 0 < v c then -(v c * f (v c)) else 0)
            (N.map Subset.getElements) ∧
      ((computeAggs v f N).multiElementNb : ℚ)
        = sumCells (fun _ => 1) (N.map Subset.getElements) := by
    intro N hN
    exact computeAggs_semantic v f N (mp_members_good hg hQ hN)
  refine ⟨?_, ?_, ?_⟩
  · rw [hM.1, ← mp_sum_sumCells M v Q hg hQ]
    congr 1
    refine (List.map_congr_left (fun N hN => ?_)).symm
    exact (hparts N hN).1
  · rw [hM.2.1, ← mp_sum_sumCells M _ Q hg hQ]
    congr 1
    refine (List.map_congr_left (fun N hN => ?_)).symm
    exact (hparts N hN).2.1
  · have : (((Q.map (fun N => (computeAggs v f N).multiElementNb)).sum : ℕ) : ℚ)
        = (((computeAggs v f M).multiElementNb : ℕ) : ℚ) := by
      rw [hM.2.2, ← mp_sum_sumCells M _ Q hg hQ, Nat.cast_list_sum, List.map_map]
      congr 1
      refine List.map_congr_left (fun N hN => ?_)
      exact (hparts N hN).2.2
    exact_mod_cast this.symm

/-- Witness for C4: one dimension whose top splits into two atoms. -/
theorem C4_aggregate_additivity_witness :
    goodMultiB [Subset.mk false 0 [[Subset.mk true 0 [], Subset.mk true 1 []]]] = true ∧
    [[Subset.mk true 0 []], [Subset.mk true 1 []]]
      ∈ multiPartitionsOf [Subset.mk false 0 [[Subset.mk true 0 [], Subset.mk true 1 []]]] ∧
    ((computeAggs (fun c => if c = [0] then (3 : ℚ) else 5) (fun q => q)
        [Subset.mk false 0 [[Subset.mk true 0 [], Subset.mk true 1 []]]]).sumValue
      = ([[Subset.mk true 0 []], [Subset.mk true 1 []]].map
          (fun N => (computeAggs (fun c => if c = [0] then (3 : ℚ) else 5)
            (fun q => q) N).sumValue)).sum ∧
     (computeAggs (fun c => if c = [0] then (3 : ℚ) else 5) (fun q => q)
        [Subset.mk false 0 [[Subset.mk true 0 [], Subset.mk true 1 []]]]).sumInfo
      = ([[Subset.mk true 0 []], [Subset.mk true 1 []]].map
          (fun N => (computeAggs (fun c => if c = [0] then (3 : ℚ) else 5)
            (fun q => q) N).sumInfo)).sum ∧
     (computeAggs (fun c => if c = [0] then (3 : ℚ) else 5) (fun q => q)
        [Subset.mk false 0 [[Subset.mk true 0 [], Subset.mk true 1 []]]]).multiElementNb
      = ([[Subset.mk true 0 []], [Subset.mk true 1 []]].map
          (fun N => (computeAggs (fun c => if c = [0] then (3 : ℚ) else 5)
            (fun q => q) N).multiElementNb)).sum) :=
  ⟨by decide, List.mem_cons_self ..,
    C4_aggregate_additivity (fun c => if c = [0] then (3 : ℚ) else 5) (fun q => q)
      [Subset.mk false 0 [[Subset.mk true 0 [], Subset.mk true 1 []]]]
      [[Subset.mk true 0 []], [Subset.mk true 1 []]]
      (by decide) (List.mem_cons_self ..)⟩

/-- C2 counterexample: a leaf multi-subset with a single covered cell of
value 2, with `log2` pinned at the exact values `log2 2 = 1` and
`log2 1 = 0`.  The code's `sumInfo` is `-2`, not the `+2` the claim's
formula `Σ v·log₂ v` gives; consequently the computed loss is `0` where
the claim's formulas give `-4`. -/
theorem C2_counterexample :
    (computeAggs (fun _ => (2 : ℚ)) (fun q => if q = 2 then 1 else 0)
      [Subset.mk true 0 []]).sumInfo = -2 ∧
    specSumI (fun _ => (2 : ℚ)) (fun q => if q = 2 then 1 else 0)
      [Subset.mk true 0 []] = 2 ∧
    ((-2 : ℚ) ≠ 2) ∧
    lossOf (fun _ => (2 : ℚ)) (fun q => if q = 2 then 1 else 0)
      [Subset.mk true 0 []] = 0 ∧
    ((0 : ℚ) ≠ 2 * (if (1 : ℚ) = 2 then 1 else 0) - 2 - 2 * (if (2 : ℚ) = 2 then 1 else 0)) := by
  have hleaf : computeAggs (fun _ => (2 : ℚ)) (fun q => if q = 2 then 1 else 0)
      [Subset.mk true 0 []] = leafAggs (fun _ => (2 : ℚ))
      (fun q => if q = 2 then 1 else 0) [Subset.mk true 0 []] :=
    computeAggs_leaf _ _ _ rfl
  refine ⟨?_, ?_, by norm_num, ?_, by norm_num⟩
  · rw [hleaf]; norm_num [leafAggs, cellsOf, cartProd, Subset.getElements]
  · norm_num [specSumI, cellsOf, cartProd, Subset.getElements]
  · rw [lossOf, hleaf]
    norm_num [leafAggs, cellsOf, cartProd, Subset.getElements]

/-- C2 (amended): for a leaf multi-subset (one with no multi-partitions),
`MultiSubset::computeLoss` computes `sumInfo` as the NEGATIVE of
`Σ over covered cells with v > 0 of v · log₂ v` (the loop does
`sumInfo -= v * log2 v`), `sumValue` as the sum of the covered values,
`multiElementNb` as the number of covered cells, and
`loss = sumValue·log₂ multiElementNb − sumInfo − sumValue·log₂ sumValue`
(last term only when `sumValue > 0`), which in terms of the spec's
`sumI = Σ v·log₂ v` is `sumValue·log₂ multiElementNb + sumI − sumValue·log₂
sumValue`. -/
theorem C2_leaf_aggregation (v : List ℕ → ℚ) (f : ℚ → ℚ) (M : List Subset)
    (h : multiPartitionsOf M = []) :
    computeAggs v f M
      = ⟨((cellsOf M).map v).sum, -(specSumI v f M), (cellsOf M).length⟩ ∧
    lossOf v f M = ((cellsOf M).map v).sum * f ((cellsOf M).length : ℚ)
      + specSumI v f M
      - (if 0 < ((cellsOf M).map v).sum then
          ((cellsOf M).map v).sum * f (((cellsOf M).map v).sum) else 0) := by
  have h1 : computeAggs v f M = leafAggs v f M := computeAggs_leaf v f M h
  have h2 := leafAggs_spec v f M
  constructor
  · rw [h1, h2]
  · rw [lossOf, h1, h2]
    show ((cellsOf M).map v).sum * f ((cellsOf M).length : ℚ) - -(specSumI v f M)
        - (if 0 < ((cellsOf M).map v).sum then
            ((cellsOf M).map v).sum * f (((cellsOf M).map v).sum) else 0) = _
    ring

/-- Witness for C2's amended statement on a concrete leaf. -/
theorem C2_leaf_aggregation_witness :
    multiPartitionsOf [Subset.mk true 4 []] = [] ∧
    (computeAggs (fun _ => (1 : ℚ)) (fun _ => 0) [Subset.mk true 4 []]
      = ⟨((cellsOf [Subset.mk true 4 []]).map (fun _ => (1 : ℚ))).sum,
         -(specSumI (fun _ => (1 : ℚ)) (fun _ => 0) [Subset.mk true 4 []]),
         (cellsOf [Subset.mk true 4 []]).length⟩ ∧
     lossOf (fun _ => (1 : ℚ)) (fun _ => 0) [Subset.mk true 4 []]
      = ((cellsOf [Subset.mk true 4 []]).map (fun _ => (1 : ℚ))).sum
          * (fun _ => (0 : ℚ)) ((cellsOf [Subset.mk true 4 []]).length : ℚ)
        + specSumI (fun _ => (1 : ℚ)) (fun _ => 0) [Subset.mk true 4 []]
        - (if 0 < ((cellsOf [Subset.mk true 4 []]).map (fun _ => (1 : ℚ))).sum then
            ((cellsOf [Subset.mk true 4 []]).map (fun _ => (1 : ℚ))).sum
              * (fun _ => (0 : ℚ))
                (((cellsOf [Subset.mk true 4 []]).map (fun _ => (1 : ℚ))).sum)
          else 0)) :=
  ⟨rfl, C2_leaf_aggregation (fun _ => 1) (fun _ => 0) [Subset.mk true 4 []] rfl⟩

theorem subset_sizeOf_lt {S' : Subset} {p : List Subset} {b : Bool} {e : ℕ}
    {ps : List (List Subset)} (hp : p ∈ ps) (hS : S' ∈ p) :
    sizeOf S' < sizeOf (Subset.mk b e ps) := by
  have h1 : sizeOf S' < sizeOf p := List.sizeOf_lt_of_mem hS
  have h2 : sizeOf p < sizeOf ps := List.sizeOf_lt_of_mem hp
  have h3 : sizeOf (Subset.mk b e ps) = 1 + sizeOf b + sizeOf e + sizeOf ps := by
    simp
  omega

theorem reaches_bot_elim {e a : ℕ} {ps : List (List Subset)}
    (h : Reaches (.mk true e ps) a) : a = e := by
  cases h
  rfl

theorem reaches_step_elim {e a : ℕ} {ps : List (List Subset)}
    (h : Reaches (.mk false e ps) a) : ∃ p ∈ ps, ∃ S' ∈ p, Reaches S' a := by
  cases h with
  | step _ _ hp hS h' => exact ⟨_, hp, _, hS, h'⟩

/-- Under the cover precondition, the elements reachable from a subset are
exactly the ones `Subset::getElements` emits. -/
theorem reaches_iff_mem :
    ∀ (S : Subset), S.goodB = true → ∀ a, Reaches S a ↔ a ∈ S.getElements := by
  have main : ∀ n : ℕ, ∀ S : Subset, sizeOf S < n → S.goodB = true →
      ∀ a, Reaches S a ↔ a ∈ S.getElements := by
    intro n
    induction n with
    | zero => intro S h; omega
    | succ n ih =>
      intro S hn hg a
      rcases S with ⟨b, e, ps⟩
      cases b with
      | true =>
          constructor
          · intro h
            rw [reaches_bot_elim h, Subset.getElements]
            exact List.mem_cons_self ..
          · intro h
            rw [Subset.getElements] at h
            rcases List.mem_cons.mp h with h' | h'
            · rw [h']; exact Reaches.bot e ps
            · cases h'
      | false =>
          have hparts : ∀ p ∈ ps, ∀ S' ∈ p, ∀ a',
              Reaches S' a' ↔ a' ∈ S'.getElements := by
            intro p hp S' hS' a'
            have hgood' : S'.goodB = true := by
              have hpp := goodPartitionsB_mem (goodB_parts_spec hg).2 hp
              exact goodPartsB_mem hpp.2.2 hS'
            have hsz : sizeOf S' < n := by
              have := subset_sizeOf_lt (b := false) (e := e) hp hS'
              omega
            exact ih S' hsz hgood' a'
          constructor
          · intro h
            rcases reaches_step_elim h with ⟨p, hp, S', hS', h'⟩
            have ha : a ∈ getElementsParts p :=
              mem_getElementsParts.mpr ⟨S', hS', (hparts p hp S' hS' a).mp h'⟩
            have hsm := (goodPartitionsB_mem (goodB_parts_spec hg).2 hp).2.1
            rw [sameMembersB, decide_eq_true_iff] at hsm
            exact hsm.1 a ha
          · intro h
            cases hps : ps with
            | nil =>
                subst hps
                rw [Subset.getElements] at h
                cases h
            | cons p₀ ps' =>
                subst hps
                rw [Subset.getElements] at h
                rcases mem_getElementsParts.mp h with ⟨S', hS', h'⟩
                exact Reaches.step e _ (List.mem_cons_self ..) hS'
                  ((hparts p₀ (List.mem_cons_self ..) S' hS' a).mpr h')
  intro S
  exact main (sizeOf S + 1) S (by omega)

theorem getElementsParts_flatMap (p : List Subset) :
    getElementsParts p = p.flatMap Subset.getElements := by
  induction p with
  | nil => rfl
  | cons S Ss ih => rw [getElementsParts, List.flatMap_cons, ih]

/-- C7: for a subset with at least one partition (hence non-atomic, by the
documented invariant that atomic subsets carry no partitions),
`Subset::getElements` produces the concatenation, in part order, of the
closures of the parts of `partitions.front()`; and under the cover
precondition every atomic element reachable from the subset appears in the
output (indeed exactly the reachable elements appear). -/
theorem C7_getElements (S : Subset) (p : List Subset) (ps : List (List Subset))
    (hinv : S.bot = true → S.partitions = [])
    (hp : S.partitions = p :: ps)
    (hg : S.goodB = true) :
    S.getElements = p.flatMap Subset.getElements ∧
    (∀ a, Reaches S a → a ∈ S.getElements) ∧
    (∀ a, Reaches S a ↔ a ∈ S.getElements) := by
  have hiff := reaches_iff_mem S hg
  refine ⟨?_, fun a h => (hiff a).mp h, hiff⟩
  rcases S with ⟨b, e, ps₀⟩
  cases b with
  | true =>
      exfalso
      have := hinv rfl
      rw [Subset.partitions] at this hp
      rw [this] at hp
      cases hp
  | false =>
      rw [Subset.partitions] at hp
      subst hp
      rw [Subset.getElements, getElementsParts_flatMap]

/-- Witness for C7 on a two-atom intermediate subset. -/
theorem C7_getElements_witness :
    ((Subset.mk false 9 [[Subset.mk true 0 [], Subset.mk true 1 []]]).bot = true →
      (Subset.mk false 9 [[Subset.mk true 0 [], Subset.mk true 1 []]]).partitions = []) ∧
    (Subset.mk false 9 [[Subset.mk true 0 [], Subset.mk true 1 []]]).partitions
      = [Subset.mk true 0 [], Subset.mk true 1 []] :: [] ∧
    (Subset.mk false 9 [[Subset.mk true 0 [], Subset.mk true 1 []]]).goodB = true ∧
    ((Subset.mk false 9 [[Subset.mk true 0 [], Subset.mk true 1 []]]).getElements
      = [Subset.mk true 0 [], Subset.mk true 1 []].flatMap Subset.getElements ∧
     (∀ a, Reaches (Subset.mk false 9 [[Subset.mk true 0 [], Subset.mk true 1 []]]) a →
        a ∈ (Subset.mk false 9 [[Subset.mk true 0 [], Subset.mk true 1 []]]).getElements) ∧
     (∀ a, Reaches (Subset.mk false 9 [[Subset.mk true 0 [], Subset.mk true 1 []]]) a ↔
        a ∈ (Subset.mk false 9 [[Subset.mk true 0 [], Subset.mk true 1 []]]).getElements)) :=
  ⟨(by intro h; cases h), rfl, (by decide),
    C7_getElements (Subset.mk false 9 [[Subset.mk true 0 [], Subset.mk true 1 []]])
      [Subset.mk true 0 [], Subset.mk true 1 []] [] (by intro h; cases h) rfl (by decide)⟩

/-- A `double` value as stored in the `loss` field: a finite value
(modelled in `ℚ`), one of the two IEEE-754 infinities, or NaN (the unset
sentinel, and the result of `0.0 / 0.0`). -/
inductive DVal : Type where
  | fin (q : ℚ)
  | pinf
  | ninf
  | nan
deriving DecidableEq

/-- IEEE-754 division of a stored `loss` by the finite `sumValue` of the
top multi-subset, as in `multiSubset->loss /= topMultiSubset->sumValue`
(`MultiSet::buildMultiSubsets`).  A zero divisor is the positive zero
produced by summing parsed measure values; `finite/0` is `±inf` by the
sign of the numerator and `0/0` is NaN. -/
def DVal.div : DVal → ℚ → DVal
  | .nan, _ => .nan
  | .pinf, _ => .pinf
  | .ninf, _ => .ninf
  | .fin q, r =>
      if r = 0 then (if q = 0 then .nan else if 0 < q then .pinf else .ninf)
      else .fin (q / r)

/-- The final loop of `MultiSet::buildMultiSubsets`: divide the stored
loss of every multi-subset by `sumValue` of the top multi-subset. -/
def normaliseLosses (losses : List DVal) (sumVtop : ℚ) : List DVal :=
  losses.map (fun l => DVal.div l sumVtop)

/-- C3 counterexample: the one-dimensional lattice whose single (top)
multi-subset covers one cell of measure 0.  Its un-normalised loss is the
finite 0 and `sumValue(top) = 0`; the normalisation loop then stores
`0.0 / 0.0 = NaN`, not the 0 the claim asserts. -/
theorem C3_counterexample :
    lossOf (fun _ => 0) (fun _ => 0) [Subset.mk true 0 []] = 0 ∧
    (computeAggs (fun _ => 0) (fun _ => 0) [Subset.mk true 0 []]).sumValue = 0 ∧
    normaliseLosses [DVal.fin (lossOf (fun _ => 0) (fun _ => 0) [Subset.mk true 0 []])]
        ((computeAggs (fun _ => 0) (fun _ => 0) [Subset.mk true 0 []]).sumValue)
      = [DVal.nan] ∧
    DVal.nan ≠ DVal.fin 0 := by
  have hleaf : computeAggs (fun _ => (0 : ℚ)) (fun _ => (0 : ℚ)) [Subset.mk true 0 []]
      = leafAggs (fun _ => 0) (fun _ => 0) [Subset.mk true 0 []] :=
    computeAggs_leaf _ _ _ rfl
  have hval : (computeAggs (fun _ => (0 : ℚ)) (fun _ => (0 : ℚ))
      [Subset.mk true 0 []]).sumValue = 0 := by
    rw [hleaf]
    norm_num [leafAggs, cellsOf, cartProd, Subset.getElements]
  have hloss : lossOf (fun _ => (0 : ℚ)) (fun _ => (0 : ℚ)) [Subset.mk true 0 []] = 0 := by
    rw [lossOf, hleaf]
    norm_num [leafAggs, cellsOf, cartProd, Subset.getElements]
  refine ⟨hloss, hval, ?_, by decide⟩
  rw [hloss, hval]
  rfl

/-- C3 (amended): the normalisation step divides every stored loss by
`sumValue(top)` (IEEE division); in the special case `sumValue(top) = 0`
the stored losses become NaN (for a finite 0 numerator) or `±inf` (for a
finite non-zero numerator) — never a finite rational value, in particular
never 0. -/
theorem C3_loss_normalisation (losses : List DVal) (s : ℚ) (hs : s = 0) :
    (∀ i : ℕ, (normaliseLosses losses s).get? i
      = (losses.get? i).map (fun l => DVal.div l s)) ∧
    (∀ l' ∈ normaliseLosses losses s, ∀ q : ℚ, l' ≠ DVal.fin q) := by
  constructor
  · intro i
    rw [normaliseLosses, List.get?_map]
  · intro l' hl' q
    rcases List.mem_map.mp hl' with ⟨l, _, hleq⟩
    subst hleq hs
    rcases l with q' | _ | _ | _
    · rw [DVal.div, if_pos rfl]
      by_cases h0 : q' = 0
      · rw [if_pos h0]; exact fun h => by cases h
      · rw [if_neg h0]
        by_cases hpos : 0 < q'
        · rw [if_pos hpos]; exact fun h => by cases h
        · rw [if_neg hpos]; exact fun h => by cases h
    · rw [DVal.div]; exact fun h => by cases h
    · rw [DVal.div]; exact fun h => by cases h
    · rw [DVal.div]; exact fun h => by cases h

/-- Witness for C3's amended statement. -/
theorem C3_loss_normalisation_witness :
    (0 : ℚ) = 0 ∧
    ((∀ i : ℕ, (normaliseLosses [DVal.fin 0, DVal.fin 5, DVal.nan] 0).get? i
      = ([DVal.fin 0, DVal.fin 5, DVal.nan].get? i).map (fun l => DVal.div l 0)) ∧
     (∀ l' ∈ normaliseLosses [DVal.fin 0, DVal.fin 5, DVal.nan] 0,
        ∀ q : ℚ, l' ≠ DVal.fin q)) :=
  ⟨rfl, C3_loss_normalisation [DVal.fin 0, DVal.fin 5, DVal.nan] 0 rfl⟩

/-- The per-multi-subset DP bookkeeping of one run, indexed by the dense
multi-subset id: the `cost` field (`none` models the NaN sentinel) and the
`multiPartition` pointer (`none` models `NULL`, `some k` a pointer to the
k-th multi-partition). -/
structure DPState : Type where
  cost : List (Option ℚ)
  chosen : List (Option ℕ)
deriving DecidableEq

/-- The reset loop at the head of `MultiSet::getMultiPartition`:
`for (MultiSubset *multiSubset : multiSubsets) { multiSubset->cost =
std::numeric_limits<double>::quiet_NaN(); }` — it assigns the NaN sentinel
to `cost` on every multi-subset and touches nothing else. -/
def resetRun (s : DPState) : DPState :=
  { cost := s.cost.map (fun _ => none), chosen := s.chosen }

/-- C6 counterexample: a state in which the previous run left a non-null
chosen partition on the multi-subset with id 0; after the reset loop the
chosen partition is still non-null, while the claim asserts it was reset
to null before any cost is computed. -/
theorem C6_counterexample :
    resetRun ⟨[some 3], [some 0]⟩ = ⟨[none], [some 0]⟩ ∧
    (some 0 : Option ℕ) ≠ none := by
  exact ⟨rfl, by decide⟩

/-- C6 (amended): at the start of every DP run the reset loop sets `cost`
to the unset sentinel on every multi-subset, and leaves every
`multiPartition` (chosen partition) pointer exactly as the previous run
left it; the pointer is only reassigned when `computeCost` visits the
multi-subset during the new run. -/
theorem C6_reset (s : DPState) :
    (resetRun s).cost.length = s.cost.length ∧
    (∀ c ∈ (resetRun s).cost, c = none) ∧
    (resetRun s).chosen = s.chosen := by
  refine ⟨?_, ?_, rfl⟩
  · rw [resetRun]; exact List.length_map ..
  · intro c hc
    rcases List.mem_map.mp hc with ⟨_, _, h⟩
    exact h.symm

/-- One dimension of the value-set catalog as used when loading measures:
the `elementsByName` map (name to dense element id) and `elementNb`. -/
structure DimCatalog : Type where
  elementsByName : List (String × ℕ)
  elementNb : ℕ

/-- `Set::getElement (std::string)`: map lookup, `NULL` (here `none`) when
the name is unknown. -/
def getElement (d : DimCatalog) (name : String) : Option ℕ :=
  d.elementsByName.lookup name

/-- The id computation of `MultiSet::getMultiElement (std::string *)`:
`for (d = dim-1; d >= 0; d--) { id *= elementNb[d]; id += getElement
(names[d])->id; }`.  Dereferencing the `NULL` returned for an unknown name
is undefined behaviour, modelled as `none` aborting the computation. -/
def getMultiElementId (dims : List DimCatalog) (names : List String) : Option ℕ :=
  ((dims.zip names).reverse).foldl
    (fun acc dn =>
      match acc, getElement dn.1 dn.2 with
      | some i, some eid => some (i * dn.1.elementNb + eid)
      | _, _ => none)
    (some 0)

/-- `MultiSet::setMultiElement`: write `value` into the addressed cell of
the dense measure tensor.  No validation of any kind is performed on
`value`. -/
def setMultiElement (dims : List DimCatalog) (tensor : List ℚ)
    (names : List String) (value : ℚ) : Option (List ℚ) :=
  (getMultiElementId dims names).map (fun i => tensor.set i value)

/-- The record loop of `MultiSet::setMultiElements`, one pre-parsed record
(name tuple and value) per line; a record whose name tuple contains an
unknown name crashes the load (undefined behaviour propagated as `none`). -/
def setMultiElements (dims : List DimCatalog) (tensor : List ℚ) :
    List (List String × ℚ) → Option (List ℚ)
  | [] => some tensor
  | (names, v) :: rest =>
      match setMultiElement dims tensor names v with
      | none => none
      | some t' => setMultiElements dims t' rest

/-- C8 counterexample, on a one-dimensional catalog with the single
element `a` (id 0) and tensor `[0]`: a record with the negative value `-1`
is stored into the tensor (not skipped, no diagnostic), and a record with
the unknown name `b` aborts the load (null dereference) instead of being
reported, skipped and followed by the next record. -/
theorem C8_counterexample :
    setMultiElements [⟨[("a", 0)], 1⟩] [0] [(["a"], -1)] = some [-1] ∧
    some [(-1 : ℚ)] ≠ some [(0 : ℚ)] ∧
    setMultiElements [⟨[("a", 0)], 1⟩] [0] [(["b"], 5), (["a"], 1)] = none ∧
    (none : Option (List ℚ)) ≠ some [(0 : ℚ)] ∧
    (none : Option (List ℚ)) ≠ some [(1 : ℚ)] := by
  refine ⟨?_, by decide, ?_, by decide, by decide⟩
  · rfl
  · rfl

/-- C8 (amended): when loading the measure file, a record whose names are
all known is applied to the tensor whatever its value — a negative value is
stored silently, the tensor is changed, and no diagnostic exists; a record
containing an unknown element name makes `getMultiElement` dereference a
null pointer (modelled: the load fails), so the record is not skipped and
parsing does not continue with the next record. -/
theorem C8_measure_load (dims : List DimCatalog) (tensor : List ℚ)
    (names : List String) (v : ℚ) (i : ℕ) (recs : List (List String × ℚ))
    (hv : v < 0) :
    (getMultiElementId dims names = some i →
      setMultiElement dims tensor names v = some (tensor.set i v)) ∧
    (getMultiElementId dims names = none →
      setMultiElements dims tensor ((names, v) :: recs) = none) := by
  constructor
  · intro h
    rw [setMultiElement, h]; rfl
  · intro h
    rw [setMultiElements]
    have h2 : setMultiElement dims tensor names v = none := by
      rw [setMultiElement, h]; rfl
    rw [h2]

/-- Witness for C8's amended statement. -/
theorem C8_measure_load_witness :
    (-1 : ℚ) < 0 ∧
    ((getMultiElementId [⟨[("a", 0)], 1⟩] [""] = some 0 →
      setMultiElement [⟨[("a", 0)], 1⟩] [0] [""] (-1) = some ([(0 : ℚ)].set 0 (-1))) ∧
     (getMultiElementId [⟨[("a", 0)], 1⟩] [""] = none →
      setMultiElements [⟨[("a", 0)], 1⟩] [0] [([""], -1)] = none)) :=
  ⟨by norm_num, C8_measure_load [⟨[("a", 0)], 1⟩] [0] [""] (-1) 0 [] (by norm_num)⟩

/-- The per-dimension subset bookkeeping touched by the `Subset`
constructor: `subsetNb`, the `subsets` vector (entries modelled by the pair
of the subset's name and its dense id), and the `subsetsByName` map,
modelled as an association list whose `insert` keeps an existing key
(`std::map::insert` semantics). -/
structure SetState : Type where
  subsetNb : ℕ
  subsets : List (String × ℕ)
  subsetsByName : List (String × ℕ)
deriving DecidableEq

/-- The `Subset::Subset` constructor body: `id = set->subsetNb++;
set->subsets.push_back (this); set->subsetsByName.insert ({name, this});`.
The map insert is a no-op when the name is already bound. -/
def newSubset (st : SetState) (name : String) : SetState :=
  { subsetNb := st.subsetNb + 1,
    subsets := st.subsets ++ [(name, st.subsetNb)],
    subsetsByName :=
      match st.subsetsByName.lookup name with
      | some _ => st.subsetsByName
      | none => (name, st.subsetNb) :: st.subsetsByName }

/-- `Set::getSubset (std::string)`: map lookup, `none` for `NULL`. -/
def getSubsetByName (st : SetState) (name : String) : Option ℕ :=
  st.subsetsByName.lookup name

/-- `Set::getSubset (int)`: direct indexing of the `subsets` vector. -/
def getSubsetById (st : SetState) (id : ℕ) : Option (String × ℕ) :=
  st.subsets.get? id

/-- Well-formedness maintained by the constructor: `subsetNb` is the
vector's length and every id bound in the map is a live dense id. -/
def wfSet (st : SetState) : Prop :=
  st.subsetNb = st.subsets.length ∧
  ∀ pr ∈ st.subsetsByName, pr.2 < st.subsetNb

theorem lookup_newSubset (st : SetState) (n m : String) :
    getSubsetByName (newSubset st n) m
      = match getSubsetByName st m with
        | some j => some j
        | none => if m = n then some st.subsetNb else none := by
  rw [getSubsetByName, newSubset]
  cases hl : st.subsetsByName.lookup n with
  | some j =>
      simp only
      cases hm : st.subsetsByName.lookup m with
      | some k => rw [getSubsetByName, hm]
      | none =>
          rw [getSubsetByName, hm]
          by_cases hmn : m = n
          · subst hmn; rw [hm] at hl; cases hl
          · simp [hmn]
  | none =>
      simp only [List.lookup]
      cases hm : st.subsetsByName.lookup m with
      | some k =>
          rw [getSubsetByName, hm]
          by_cases hmn : m = n
          · subst hmn; rw [hm] at hl; cases hl
          · have hbeq : (m == n) = false := beq_eq_false_iff_ne.mpr hmn
            rw [hbeq]
      | none =>
          rw [getSubsetByName, hm]
          by_cases hmn : m = n
          · subst hmn; simp
          · have hbeq : (m == n) = false := beq_eq_false_iff_ne.mpr hmn
            rw [hbeq]
            simp [hmn]

/-- C10: creating two subsets with the same name in one dimension appends
both to the `subsets` vector with distinct dense ids (both reachable by
`getSubset (int)` and enumerated by the lattice builder), but
`getSubset (std::string)` keeps returning the binding of the first subset
created with that name — never the second; the first name-to-subset
binding is silently kept. -/
theorem lookup_mem :
    ∀ {l : List (String × ℕ)} {m : String} {j : ℕ},
      l.lookup m = some j → (m, j) ∈ l := by
  intro l
  induction l with
  | nil => intro m j h; cases h
  | cons pr rest ih =>
      intro m j h
      rcases pr with ⟨k, v⟩
      rw [List.lookup] at h
      cases hmk : (m == k) with
      | true =>
          rw [hmk] at h
          rw [Option.some.injEq] at h
          subst h
          have : m = k := beq_iff_eq.mp hmk
          subst this
          exact List.mem_cons_self ..
      | false =>
          rw [hmk] at h
          exact List.mem_cons_of_mem _ (ih h)

theorem C10_duplicate_names (st : SetState) (n : String) (h : wfSet st) :
    getSubsetById (newSubset (newSubset st n) n) st.subsetNb = some (n, st.subsetNb) ∧
    getSubsetById (newSubset (newSubset st n) n) (st.subsetNb + 1)
      = some (n, st.subsetNb + 1) ∧
    st.subsetNb ≠ st.subsetNb + 1 ∧
    getSubsetByName (newSubset (newSubset st n) n) n ≠ some (st.subsetNb + 1) ∧
    (getSubsetByName st n = none →
      getSubsetByName (newSubset (newSubset st n) n) n = some st.subsetNb) ∧
    (∀ j, getSubsetByName st n = some j →
      getSubsetByName (newSubset (newSubset st n) n) n = some j) := by
  have hlen : st.subsetNb = st.subsets.length := h.1
  have hsub2 : (newSubset (newSubset st n) n).subsets
      = (st.subsets ++ [(n, st.subsetNb)]) ++ [(n, st.subsetNb + 1)] := by
    rw [newSubset, newSubset]
  have hfst : getSubsetById (newSubset (newSubset st n) n) st.subsetNb
      = some (n, st.subsetNb) := by
    rw [getSubsetById, hsub2]
    rw [List.get?_append]
    · rw [hlen, List.get?_concat_length]
    · rw [List.length_append, List.length_singleton, hlen]
      omega
  have hsnd : getSubsetById (newSubset (newSubset st n) n) (st.subsetNb + 1)
      = some (n, st.subsetNb + 1) := by
    rw [getSubsetById, hsub2]
    have : st.subsetNb + 1 = (st.subsets ++ [(n, st.subsetNb)]).length := by
      rw [List.length_append, List.length_singleton, hlen]
    rw [this, List.get?_concat_length]
  have hlook2 : getSubsetByName (newSubset (newSubset st n) n) n
      = match getSubsetByName st n with
        | some j => some j
        | none => some st.subsetNb := by
    rw [lookup_newSubset, lookup_newSubset]
    cases hm : getSubsetByName st n with
    | some j => simp
    | none => simp
  refine ⟨hfst, hsnd, by omega, ?_, ?_, ?_⟩
  · rw [hlook2]
    cases hm : getSubsetByName st n with
    | some j =>
        simp only
        have hj : j < st.subsetNb := by
          have hmem : (n, j) ∈ st.subsetsByName := by
            rw [getSubsetByName] at hm
            exact lookup_mem hm
          exact h.2 _ hmem
        intro hcontra
        rw [Option.some.injEq] at hcontra
        omega
    | none =>
        simp only
        intro hcontra
        rw [Option.some.injEq] at hcontra
        omega
  · intro hm
    rw [hlook2, hm]
  · intro j hm
    rw [hlook2, hm]

/-- Witness for C10 starting from the empty dimension state. -/
theorem C10_duplicate_names_witness :
    wfSet ⟨0, [], []⟩ ∧
    (getSubsetById (newSubset (newSubset ⟨0, [], []⟩ "x") "x") 0 = some ("x", 0) ∧
     getSubsetById (newSubset (newSubset ⟨0, [], []⟩ "x") "x") (0 + 1) = some ("x", 0 + 1) ∧
     (0 : ℕ) ≠ 0 + 1 ∧
     getSubsetByName (newSubset (newSubset ⟨0, [], []⟩ "x") "x") "x" ≠ some (0 + 1) ∧
     (getSubsetByName ⟨0, [], []⟩ "x" = none →
       getSubsetByName (newSubset (newSubset ⟨0, [], []⟩ "x") "x") "x" = some 0) ∧
     (∀ j, getSubsetByName ⟨0, [], []⟩ "x" = some j →
       getSubsetByName (newSubset (newSubset ⟨0, [], []⟩ "x") "x") "x" = some j)) :=
  ⟨⟨rfl, by intro pr hpr; cases hpr⟩,
    C10_duplicate_names ⟨0, [], []⟩ "x" ⟨rfl, by intro pr hpr; cases hpr⟩⟩
